import Mathlib

/-!
Verification of the encry context-bound encryption service.

This file shallowly embeds the Rust sources of the repository
(src/kryptor/utilities.rs, src/kryptor/errors.rs, src/utilities.rs)
and settles the specification claims about them.

Modelling conventions:

* Rust byte vectors and strings are `List Nat` of byte values (< 256);
  a Rust `String` is represented by the list of its UTF-8 code units.
* Fallible Rust code returns `Outcome`: `ok`, a typed `error`
  (`EncryptionError`, mirroring src/kryptor/errors.rs), or `panicked`
  for a Rust panic (reached by `expect` on an `Err`, and by slice
  `split_at` with an out-of-bounds index).
* Rust methods taking `&mut self` are modelled as functions returning a
  pair of the result and the updated service value.
* External crates are modelled as follows.  The base64 crate
  (general_purpose::STANDARD: standard alphabet, padded, canonical) is
  implemented bit-faithfully as `b64encode`/`b64decode`.
  `String::from_utf8` is modelled by a bit-faithful UTF-8 validator on
  the byte list (the string keeps the same bytes).  The cryptographic
  crates hkdf/sha2 and aes_gcm are modelled as ideal primitives:
  `hkdfExpand` is an injective key-derivation function returning a
  32-element key, and `gcmEncrypt`/`gcmDecrypt` form an ideal AEAD whose
  decryption succeeds exactly on ciphertexts produced by encryption
  under the same key and nonce (perfect authenticity) and whose valid
  ciphertexts under a fixed key and nonce never differ in a single byte
  (perfect tag).  These are the contracts the real primitives provide
  computationally.
* serde_json serialization is abstracted by a `JsonCodec` structure
  supplying serialize/deserialize functions together with the
  round-trip and UTF-8 facts serde_json guarantees; a concrete decimal
  codec for `Nat` instantiates it in witnesses.
-/

/-- A byte list: every element is a value below 256. -/
def isBytes (l : List Nat) : Prop := ∀ b ∈ l, b < 256

instance (l : List Nat) : Decidable (isBytes l) :=
  inferInstanceAs (Decidable (∀ b ∈ l, b < 256))

/-- The error enum of src/kryptor/errors.rs.  Payloads (the wrapped
library errors) are omitted; only the variant matters to the claims.
The spec's names map to these variants through the `From` instances of
errors.rs: EncodingError is `Base64DecodeError`, KeyDerivationError is
`HkdfError`, AuthenticationError is `AesGcmError` (the variant produced
by `From<aes_gcm::Error>`, used by the `?` operator on
`cipher.decrypt`), TextEncodingError is `Utf8Error`. -/
inductive EncryptionError where
  | SerializationError
  | Base64DecodeError
  | HkdfError
  | EncryptError
  | DecryptError
  | AesGcmError
  | Utf8Error
  | Other
deriving DecidableEq, Repr

/-- Result of running a fallible piece of Rust code: a value, a typed
error, or a process-aborting panic. -/
inductive Outcome (α : Type) where
  | ok (a : α)
  | error (e : EncryptionError)
  | panicked
deriving DecidableEq, Repr

/-!
The base64 crate, general_purpose::STANDARD engine: standard alphabet,
padding required and canonical (the unused trailing bits of the last
symbol must be zero).  Encoding maps a byte list to the list of ASCII
codes of the base64 text; decoding is its exact inverse and rejects
malformed text.
-/

def b64alpha (s : Nat) : Nat :=
  if s < 26 then 65 + s
  else if s < 52 then 71 + s
  else if s < 62 then s - 4
  else if s = 62 then 43
  else 47

def sextetOf (c : Nat) : Option Nat :=
  if 65 ≤ c ∧ c ≤ 90 then some (c - 65)
  else if 97 ≤ c ∧ c ≤ 122 then some (c - 71)
  else if 48 ≤ c ∧ c ≤ 57 then some (c + 4)
  else if c = 43 then some 62
  else if c = 47 then some 63
  else none

def b64decode : List Nat → Option (List Nat)
  | [] => some []
  | c1 :: c2 :: c3 :: c4 :: rest =>
      match sextetOf c1, sextetOf c2 with
      | some s1, some s2 =>
        if c3 = 61 then
          if c4 = 61 ∧ rest = [] ∧ s2 % 16 = 0 then some [s1 * 4 + s2 / 16] else none
        else
          match sextetOf c3 with
          | some s3 =>
            if c4 = 61 then
              if rest = [] ∧ s3 % 4 = 0 then
                some [s1 * 4 + s2 / 16, (s2 % 16 * 16 + s3 / 4)]
              else none
            else
              match sextetOf c4 with
              | some s4 =>
                (b64decode rest).map
                  (fun bs => (s1 * 4 + s2 / 16) :: (s2 % 16 * 16 + s3 / 4) ::
                    ((s3 % 4 * 64 + s4) :: bs))
              | none => none
          | none => none
      | _, _ => none
  | _ => none

theorem sextetOf_b64alpha : ∀ s < 64, sextetOf (b64alpha s) = some s := by decide
theorem b64alpha_ne_pad : ∀ s < 64, b64alpha s ≠ 61 := by decide

theorem b64decode_chunk (s1 s2 s3 s4 : Nat) (h1 : s1 < 64) (h2 : s2 < 64)
    (h3 : s3 < 64) (h4 : s4 < 64) (rest : List Nat) :
    b64decode (b64alpha s1 :: b64alpha s2 :: b64alpha s3 :: b64alpha s4 :: rest)
      = (b64decode rest).map
          (fun bs => (s1 * 4 + s2 / 16) :: (s2 % 16 * 16 + s3 / 4) ::
            ((s3 % 4 * 64 + s4) :: bs)) := by
  rw [b64decode]
  rw [sextetOf_b64alpha _ h1, sextetOf_b64alpha _ h2, sextetOf_b64alpha _ h3,
    sextetOf_b64alpha _ h4]
  simp [b64alpha_ne_pad _ h3, b64alpha_ne_pad _ h4]

theorem b64decode_pad2 (s1 s2 : Nat) (h1 : s1 < 64) (h2 : s2 < 64) :
    b64decode [b64alpha s1, b64alpha s2, 61, 61]
      = if s2 % 16 = 0 then some [s1 * 4 + s2 / 16] else none := by
  rw [b64decode]
  rw [sextetOf_b64alpha _ h1, sextetOf_b64alpha _ h2]
  simp

theorem b64decode_pad1 (s1 s2 s3 : Nat) (h1 : s1 < 64) (h2 : s2 < 64) (h3 : s3 < 64) :
    b64decode [b64alpha s1, b64alpha s2, b64alpha s3, 61]
      = if s3 % 4 = 0 then some [s1 * 4 + s2 / 16, (s2 % 16 * 16 + s3 / 4)]
        else none := by
  rw [b64decode]
  rw [sextetOf_b64alpha _ h1, sextetOf_b64alpha _ h2, sextetOf_b64alpha _ h3]
  simp [b64alpha_ne_pad _ h3]

def b64encode : List Nat → List Nat
  | [] => []
  | [b1] => [b64alpha (b1 / 4), b64alpha (b1 % 4 * 16), 61, 61]
  | [b1, b2] =>
      [b64alpha (b1 / 4), b64alpha (b1 % 4 * 16 + b2 / 16), b64alpha (b2 % 16 * 4), 61]
  | b1 :: b2 :: b3 :: rest =>
      b64alpha (b1 / 4) :: b64alpha (b1 % 4 * 16 + b2 / 16) ::
        b64alpha (b2 % 16 * 4 + b3 / 64) :: b64alpha (b3 % 64) :: b64encode rest

theorem b64decode_b64encode :
    ∀ l : List Nat, isBytes l → b64decode (b64encode l) = some l
  | [], _ => rfl
  | [b1], h => by
      have hb1 : b1 < 256 := h b1 (by simp)
      rw [b64encode, b64decode_pad2 _ _ (by omega) (by omega)]
      have e0 : b1 % 4 * 16 % 16 = 0 := by omega
      have e1 : b1 / 4 * 4 + b1 % 4 * 16 / 16 = b1 := by omega
      rw [if_pos e0, e1]
  | [b1, b2], h => by
      have hb1 : b1 < 256 := h b1 (by simp)
      have hb2 : b2 < 256 := h b2 (by simp)
      rw [b64encode, b64decode_pad1 _ _ _ (by omega) (by omega) (by omega)]
      have e0 : b2 % 16 * 4 % 4 = 0 := by omega
      have e1 : b1 / 4 * 4 + (b1 % 4 * 16 + b2 / 16) / 16 = b1 := by omega
      have e2 : (b1 % 4 * 16 + b2 / 16) % 16 * 16 + b2 % 16 * 4 / 4 = b2 := by omega
      rw [if_pos e0, e1, e2]
  | b1 :: b2 :: b3 :: rest, h => by
      have hb1 : b1 < 256 := h b1 (by simp)
      have hb2 : b2 < 256 := h b2 (by simp)
      have hb3 : b3 < 256 := h b3 (by simp)
      have hrest : isBytes rest := fun b hb => h b (by simp [hb])
      have ih := b64decode_b64encode rest hrest
      rw [b64encode, b64decode_chunk _ _ _ _ (by omega) (by omega) (by omega) (by omega)]
      rw [ih]
      have e1 : b1 / 4 * 4 + (b1 % 4 * 16 + b2 / 16) / 16 = b1 := by omega
      have e2 : (b1 % 4 * 16 + b2 / 16) % 16 * 16 + (b2 % 16 * 4 + b3 / 64) / 4 = b2 := by
        omega
      have e3 : (b2 % 16 * 4 + b3 / 64) % 4 * 64 + b3 % 64 = b3 := by omega
      simp only [Option.map_some']
      rw [e1, e2, e3]

theorem b64alpha_lt_128 (s : Nat) : b64alpha s < 128 := by
  unfold b64alpha
  split_ifs <;> omega

/-- Base64 text is pure ASCII. -/
theorem b64encode_lt_128 : ∀ l : List Nat, ∀ c ∈ b64encode l, c < 128
  | [], c, hc => by simp [b64encode] at hc
  | [b1], c, hc => by
      simp only [b64encode, List.mem_cons, List.not_mem_nil, or_false] at hc
      rcases hc with rfl | rfl | rfl | rfl
      · exact b64alpha_lt_128 _
      · exact b64alpha_lt_128 _
      · omega
      · omega
  | [b1, b2], c, hc => by
      simp only [b64encode, List.mem_cons, List.not_mem_nil, or_false] at hc
      rcases hc with rfl | rfl | rfl | rfl
      · exact b64alpha_lt_128 _
      · exact b64alpha_lt_128 _
      · exact b64alpha_lt_128 _
      · omega
  | b1 :: b2 :: b3 :: rest, c, hc => by
      simp only [b64encode, List.mem_cons] at hc
      rcases hc with rfl | rfl | rfl | rfl | hc
      · exact b64alpha_lt_128 _
      · exact b64alpha_lt_128 _
      · exact b64alpha_lt_128 _
      · exact b64alpha_lt_128 _
      · exact b64encode_lt_128 rest c hc

/-!
String::from_utf8 of the Rust standard library, modelled as a
bit-faithful UTF-8 validity check on the byte list (RFC 3629 shortest
form, surrogates excluded, maximum U+10FFFF).  The fuel argument only
drives structural recursion; `utf8Valid` supplies the list length.
-/

/-- A UTF-8 continuation byte (10xxxxxx). -/
def isCont (b : Nat) : Bool := decide (128 ≤ b ∧ b < 192)

def utf8Go : Nat → List Nat → Bool
  | _, [] => true
  | 0, _ :: _ => false
  | f + 1, b1 :: rest =>
    if b1 < 128 then utf8Go f rest
    else if 194 ≤ b1 ∧ b1 ≤ 223 then
      match rest with
      | b2 :: r2 => isCont b2 && utf8Go f r2
      | [] => false
    else if b1 = 224 then
      match rest with
      | b2 :: b3 :: r3 => decide (160 ≤ b2 ∧ b2 ≤ 191) && isCont b3 && utf8Go f r3
      | _ => false
    else if (225 ≤ b1 ∧ b1 ≤ 236) ∨ b1 = 238 ∨ b1 = 239 then
      match rest with
      | b2 :: b3 :: r3 => isCont b2 && isCont b3 && utf8Go f r3
      | _ => false
    else if b1 = 237 then
      match rest with
      | b2 :: b3 :: r3 => decide (128 ≤ b2 ∧ b2 ≤ 159) && isCont b3 && utf8Go f r3
      | _ => false
    else if b1 = 240 then
      match rest with
      | b2 :: b3 :: b4 :: r4 =>
          decide (144 ≤ b2 ∧ b2 ≤ 191) && isCont b3 && isCont b4 && utf8Go f r4
      | _ => false
    else if 241 ≤ b1 ∧ b1 ≤ 243 then
      match rest with
      | b2 :: b3 :: b4 :: r4 => isCont b2 && isCont b3 && isCont b4 && utf8Go f r4
      | _ => false
    else if b1 = 244 then
      match rest with
      | b2 :: b3 :: b4 :: r4 =>
          decide (128 ≤ b2 ∧ b2 ≤ 143) && isCont b3 && isCont b4 && utf8Go f r4
      | _ => false
    else false

/-- Rust `String::from_utf8(bytes)` succeeds exactly when this holds. -/
def utf8Valid (l : List Nat) : Bool := utf8Go l.length l

theorem utf8Go_ascii : ∀ f : Nat, ∀ l : List Nat, l.length ≤ f →
    (∀ b ∈ l, b < 128) → utf8Go f l = true := by
  intro f
  induction f with
  | zero =>
    intro l hl _
    cases l with
    | nil => rfl
    | cons b rest => simp at hl
  | succ f ih =>
    intro l hl hb
    cases l with
    | nil => rfl
    | cons b1 rest =>
      have hb1 : b1 < 128 := hb b1 (by simp)
      rw [utf8Go.eq_def]
      simp only [if_pos hb1]
      exact ih rest (by simpa using hl) (fun b h => hb b (by simp [h]))

theorem utf8Valid_of_ascii (l : List Nat) (h : ∀ b ∈ l, b < 128) :
    utf8Valid l = true := utf8Go_ascii _ _ le_rfl h

/-!
Injective numeric encodings used by the ideal models of the
cryptographic crates.  `encB` encodes a byte list as one natural number
(its base-256 digits behind a leading 1); `digitsGo` produces base-255
digits of a number, fuelled for structural recursion.
-/

/-- Injective encoding of a byte list into one natural number. -/
def encB (l : List Nat) : Nat := Nat.ofDigits 256 (l.reverse ++ [1])

theorem encB_inj (l1 l2 : List Nat) (h1 : isBytes l1) (h2 : isBytes l2)
    (he : encB l1 = encB l2) : l1 = l2 := by
  have w1 : ∀ x ∈ l1.reverse ++ [1], x < 256 := by
    intro x hx
    rcases List.mem_append.mp hx with hx | hx
    · exact h1 x (List.mem_reverse.mp hx)
    · simp at hx; omega
  have w2 : ∀ x ∈ l2.reverse ++ [1], x < 256 := by
    intro x hx
    rcases List.mem_append.mp hx with hx | hx
    · exact h2 x (List.mem_reverse.mp hx)
    · simp at hx; omega
  have g1 : ∀ h : l1.reverse ++ [1] ≠ [], (l1.reverse ++ [1]).getLast h ≠ 0 := by
    intro h
    rw [List.getLast_append]
    · simp
  have g2 : ∀ h : l2.reverse ++ [1] ≠ [], (l2.reverse ++ [1]).getLast h ≠ 0 := by
    intro h
    rw [List.getLast_append]
    · simp
  have d1 := Nat.digits_ofDigits 256 (by norm_num) (l1.reverse ++ [1]) w1 g1
  have d2 := Nat.digits_ofDigits 256 (by norm_num) (l2.reverse ++ [1]) w2 g2
  have : l1.reverse ++ [1] = l2.reverse ++ [1] := by
    rw [← d1, ← d2]
    unfold encB at he
    rw [he]
  have hrev : l1.reverse = l2.reverse := (List.append_inj' this rfl).1
  simpa using congrArg List.reverse hrev

/-- Base-255 digits (little endian, canonical) with explicit fuel. -/
def digitsGo : Nat → Nat → List Nat
  | _, 0 => []
  | 0, _ + 1 => []
  | f + 1, n + 1 => ((n + 1) % 255) :: digitsGo f ((n + 1) / 255)

def natDigits255 (n : Nat) : List Nat := digitsGo n n

theorem digitsGo_spec : ∀ f n : Nat, n ≤ f → Nat.ofDigits 255 (digitsGo f n) = n := by
  intro f
  induction f with
  | zero =>
    intro n hn
    interval_cases n
    rfl
  | succ f ih =>
    intro n hn
    match n with
    | 0 => rfl
    | n + 1 =>
      rw [digitsGo, Nat.ofDigits_cons]
      have hdiv : (n + 1) / 255 ≤ f := by
        have := Nat.div_lt_self (Nat.succ_pos n) (by norm_num : 1 < 255)
        omega
      rw [ih _ hdiv]
      omega

theorem digitsGo_lt : ∀ f n d : Nat, d ∈ digitsGo f n → d < 255 := by
  intro f
  induction f with
  | zero =>
    intro n d hd
    match n with
    | 0 => simp [digitsGo] at hd
    | n + 1 => simp [digitsGo] at hd
  | succ f ih =>
    intro n d hd
    match n with
    | 0 => simp [digitsGo] at hd
    | n + 1 =>
      rw [digitsGo] at hd
      rcases List.mem_cons.mp hd with rfl | hd
      · exact Nat.mod_lt _ (by norm_num)
      · exact ih _ _ hd

theorem natDigits255_spec (n : Nat) : Nat.ofDigits 255 (natDigits255 n) = n :=
  digitsGo_spec n n le_rfl

theorem natDigits255_lt (n d : Nat) (hd : d ∈ natDigits255 n) : d < 255 :=
  digitsGo_lt n n d hd

/-!
The hkdf/sha2 crates.  Modelled as an ideal key-derivation function:
deterministic (it is a function), 32 entries long like the real
`[u8; 32]` output, and — the idealization — injective in (ikm, info),
standing for the computational independence of keys derived from
different inputs.  The real `Hkdf::<Sha256>::new(None, ikm)` plus
`expand(info, 32)` cannot fail for a 32-byte output (InvalidLength
requires more than 255 hash lengths), so the model is total.
-/

def hkdfExpand (ikm info : List Nat) : List Nat :=
  encB ikm :: encB info :: List.replicate 30 0

theorem hkdfExpand_length (ikm info : List Nat) : (hkdfExpand ikm info).length = 32 := rfl

theorem hkdfExpand_info_inj (ikm i1 i2 : List Nat) (h1 : isBytes i1) (h2 : isBytes i2)
    (hne : i1 ≠ i2) : hkdfExpand ikm i1 ≠ hkdfExpand ikm i2 := by
  intro h
  unfold hkdfExpand at h
  simp only [List.cons.injEq] at h
  exact hne (encB_inj _ _ h1 h2 h.2.1)

/-!
A self-delimiting byte encoding of lists of natural numbers, used by
the ideal AEAD: each number becomes its base-255 digits followed by the
terminator byte 255.  The encoding is injective and parseable, and its
output consists of bytes.
-/

def group255 (n : Nat) : List Nat := natDigits255 n ++ [255]

def byteEncodeList (l : List Nat) : List Nat := (l.map group255).flatten

/-- Split one terminated digit group off the front. -/
def takeGroup : List Nat → Option (List Nat × List Nat)
  | [] => none
  | b :: rest =>
    if b = 255 then some ([], rest)
    else (takeGroup rest).map (fun p => (b :: p.1, p.2))

/-- Parse all digit groups back into numbers; fuel drives recursion. -/
def parseGroupsF : Nat → List Nat → Option (List Nat)
  | _, [] => some []
  | 0, _ :: _ => none
  | f + 1, b :: rest =>
    match takeGroup (b :: rest) with
    | none => none
    | some (ds, r) => (parseGroupsF f r).map (fun vs => Nat.ofDigits 255 ds :: vs)

def parseGroups (l : List Nat) : Option (List Nat) := parseGroupsF l.length l

theorem takeGroup_digits (ds : List Nat) (hds : ∀ d ∈ ds, d < 255) (rest : List Nat) :
    takeGroup (ds ++ 255 :: rest) = some (ds, rest) := by
  induction ds with
  | nil => simp [takeGroup]
  | cons d ds ih =>
    have hd : d < 255 := hds d (by simp)
    have hds2 : ∀ x ∈ ds, x < 255 := fun x hx => hds x (by simp [hx])
    rw [List.cons_append, takeGroup, if_neg (by omega)]
    rw [ih hds2]
    rfl

theorem byteEncodeList_cons (x : Nat) (xs : List Nat) :
    byteEncodeList (x :: xs) = natDigits255 x ++ 255 :: byteEncodeList xs := by
  simp [byteEncodeList, group255]

theorem byteEncodeList_length_le : ∀ l : List Nat, l.length ≤ (byteEncodeList l).length := by
  intro l
  induction l with
  | nil => simp [byteEncodeList]
  | cons x xs ih =>
    rw [byteEncodeList_cons]
    simp only [List.length_append, List.length_cons]
    omega

theorem parseGroupsF_bel (f : Nat) (l : List Nat) (hf : l.length ≤ f) :
    parseGroupsF f (byteEncodeList l) = some l := by
  induction l generalizing f with
  | nil => cases f <;> rfl
  | cons x xs ih =>
    match f with
    | 0 => simp at hf
    | f + 1 =>
      rw [byteEncodeList_cons]
      have hsplit := takeGroup_digits (natDigits255 x) (fun d hd => natDigits255_lt x d hd)
        (byteEncodeList xs)
      cases hsh : natDigits255 x ++ 255 :: byteEncodeList xs with
      | nil => simp at hsh
      | cons hd tl =>
        rw [hsh] at hsplit
        rw [parseGroupsF, hsplit]
        simp only [ih f (by simpa using hf), Option.map_some', natDigits255_spec]

theorem parseGroups_bel (l : List Nat) : parseGroups (byteEncodeList l) = some l :=
  parseGroupsF_bel _ _ (byteEncodeList_length_le l)

theorem byteEncodeList_inj {l1 l2 : List Nat} (h : byteEncodeList l1 = byteEncodeList l2) :
    l1 = l2 := by
  have h1 := parseGroups_bel l1
  rw [h, parseGroups_bel l2] at h1
  exact (Option.some.injEq _ _).mp h1.symm

theorem byteEncodeList_isBytes (l : List Nat) : isBytes (byteEncodeList l) := by
  intro b hb
  induction l with
  | nil => simp [byteEncodeList] at hb
  | cons x xs ih =>
    rw [byteEncodeList_cons] at hb
    rcases List.mem_append.mp hb with hx | hx
    · have := natDigits255_lt x b hx
      omega
    · rcases List.mem_cons.mp hx with rfl | hx
      · omega
      · exact ih hx

/-!
The aes_gcm crate (Aes256Gcm), modelled as an ideal AEAD.
`gcmEncrypt key nonce pt` produces the self-delimiting byte encoding of
the triple (key, nonce, pt) followed by a one-byte checksum;
`gcmDecrypt` accepts a ciphertext exactly when it re-encrypts to the
same bytes under the same key and nonce.  This realizes, exactly, the
contract AES-256-GCM provides computationally: decryption inverts
encryption under the matching key and nonce; any other key, any other
nonce, or any single-byte modification of the ciphertext makes
verification fail; and no plaintext is released on failure.  Real
`cipher.encrypt` cannot fail for in-memory data, so sealing is total.
-/

def tripleEnc (key nonce pt : List Nat) : List Nat :=
  byteEncodeList (key.length :: (key ++ nonce.length :: (nonce ++ pt)))

/-- Ideal AEAD seal: ciphertext-plus-tag bytes. -/
def gcmEncrypt (key nonce pt : List Nat) : List Nat :=
  tripleEnc key nonce pt ++ [(tripleEnc key nonce pt).sum % 256]

/-- Ideal AEAD open: parses the triple back, then verifies by
re-encryption; returns the plaintext only on exact match. -/
def gcmDecrypt (key nonce ct : List Nat) : Option (List Nat) :=
  match parseGroups ct.dropLast with
  | none => none
  | some [] => none
  | some (lk :: rest1) =>
    match rest1.drop lk with
    | [] => none
    | ln :: rest3 =>
      if rest1.take lk = key ∧ rest3.take ln = nonce ∧
          gcmEncrypt (rest1.take lk) (rest3.take ln) (rest3.drop ln) = ct
      then some (rest3.drop ln) else none

theorem tripleEnc_inj {k1 n1 p1 k2 n2 p2 : List Nat}
    (h : tripleEnc k1 n1 p1 = tripleEnc k2 n2 p2) :
    k1 = k2 ∧ n1 = n2 ∧ p1 = p2 := by
  have hflat := byteEncodeList_inj h
  have hlen : k1.length = k2.length := by
    injection hflat
  injection hflat with h1 h2
  have hk := List.append_inj h2 hlen
  have hlen2 : n1.length = n2.length := by
    injection hk.2
  injection hk.2 with h3 h4
  have hn := List.append_inj h4 hlen2
  exact ⟨hk.1, hn.1, hn.2⟩

theorem gcmEncrypt_inj {k1 n1 p1 k2 n2 p2 : List Nat}
    (h : gcmEncrypt k1 n1 p1 = gcmEncrypt k2 n2 p2) :
    k1 = k2 ∧ n1 = n2 ∧ p1 = p2 := by
  unfold gcmEncrypt at h
  exact tripleEnc_inj (List.append_inj' h rfl).1

theorem gcmEncrypt_isBytes (key nonce pt : List Nat) : isBytes (gcmEncrypt key nonce pt) := by
  intro b hb
  unfold gcmEncrypt at hb
  rcases List.mem_append.mp hb with hb | hb
  · exact byteEncodeList_isBytes _ b hb
  · simp only [List.mem_singleton] at hb
    subst hb
    exact Nat.mod_lt _ (by norm_num)

theorem gcmDecrypt_gcmEncrypt (key nonce pt : List Nat) :
    gcmDecrypt key nonce (gcmEncrypt key nonce pt) = some pt := by
  have hdl : (gcmEncrypt key nonce pt).dropLast = tripleEnc key nonce pt := by
    unfold gcmEncrypt
    simp
  rw [gcmDecrypt, hdl]
  unfold tripleEnc
  rw [parseGroups_bel]
  simp only [List.drop_left, List.take_left]
  simp

theorem gcmDecrypt_sound {key nonce ct pt : List Nat}
    (h : gcmDecrypt key nonce ct = some pt) : ct = gcmEncrypt key nonce pt := by
  unfold gcmDecrypt at h
  split at h
  · exact absurd h (by simp)
  · exact absurd h (by simp)
  · split at h
    · exact absurd h (by simp)
    · split at h
      · rename_i hcond
        obtain ⟨hk, hn, henc⟩ := hcond
        have hpt := (Option.some.injEq _ _).mp h
        rw [← hk, ← hn, ← hpt]
        exact henc.symm
      · exact absurd h (by simp)

theorem gcmDecrypt_separation {key nonce kP nP pt : List Nat}
    (hne : kP ≠ key ∨ nP ≠ nonce) :
    gcmDecrypt kP nP (gcmEncrypt key nonce pt) = none := by
  cases hd : gcmDecrypt kP nP (gcmEncrypt key nonce pt) with
  | none => rfl
  | some pt2 =>
    have hs := gcmDecrypt_sound hd
    obtain ⟨hk, hn, _⟩ := gcmEncrypt_inj hs
    rcases hne with hne | hne
    · exact absurd hk.symm hne
    · exact absurd hn.symm hne

theorem sum_set_add (l : List Nat) (j b : Nat) (hj : j < l.length) :
    (l.set j b).sum + l.getD j 0 = l.sum + b := by
  induction l generalizing j with
  | nil => simp at hj
  | cons x xs ih =>
    cases j with
    | zero => simp [List.set]; omega
    | succ j =>
      simp only [List.set, List.sum_cons, List.getD_cons_succ]
      have := ih j (by simpa using hj)
      omega

theorem getD_lt_of_isBytes (l : List Nat) (j : Nat) (hj : j < l.length)
    (h : isBytes l) : l.getD j 0 < 256 := by
  rw [List.getD_eq_getElem l 0 hj]
  exact h _ (List.getElem_mem hj)

/-- Flipping any single byte of an ideal-AEAD ciphertext makes
decryption fail: the two valid ciphertexts would have to agree on the
checksum byte while their bodies differ in exactly one byte, or agree
on the body while differing in the checksum. -/
theorem gcmDecrypt_flip (key nonce pt : List Nat) (j bP : Nat)
    (hj : j < (gcmEncrypt key nonce pt).length) (hb : bP < 256)
    (hne : bP ≠ (gcmEncrypt key nonce pt).getD j 0) :
    gcmDecrypt key nonce ((gcmEncrypt key nonce pt).set j bP) = none := by
  cases hd : gcmDecrypt key nonce ((gcmEncrypt key nonce pt).set j bP) with
  | none => rfl
  | some pt2 =>
    exfalso
    have hs := gcmDecrypt_sound hd
    have hlenE : (gcmEncrypt key nonce pt).length = (tripleEnc key nonce pt).length + 1 := by
      unfold gcmEncrypt; simp
    by_cases hj2 : j < (tripleEnc key nonce pt).length
    · -- the flip hits the encoded triple; the checksum byte exposes it
      have hsplit : (gcmEncrypt key nonce pt).set j bP
          = (tripleEnc key nonce pt).set j bP ++ [(tripleEnc key nonce pt).sum % 256] := by
        unfold gcmEncrypt
        rw [List.set_append_left _ _ hj2]
      rw [hsplit] at hs
      unfold gcmEncrypt at hs
      have hparts := List.append_inj' hs rfl
      have hbody : (tripleEnc key nonce pt).set j bP = tripleEnc key nonce pt2 := hparts.1
      have hchk : (tripleEnc key nonce pt).sum % 256 = (tripleEnc key nonce pt2).sum % 256 := by
        have := hparts.2
        injection this
      rw [← hbody] at hchk
      have hsum := sum_set_add (tripleEnc key nonce pt) j bP hj2
      have hgetlt : (tripleEnc key nonce pt).getD j 0 < 256 :=
        getD_lt_of_isBytes _ _ hj2 (byteEncodeList_isBytes _)
      have hgetD : (gcmEncrypt key nonce pt).getD j 0 = (tripleEnc key nonce pt).getD j 0 := by
        unfold gcmEncrypt
        simp [List.getD_eq_getElem?_getD, List.getElem?_append_left hj2]
      rw [hgetD] at hne
      omega
    · -- the flip hits the checksum byte
      have hjeq : j = (tripleEnc key nonce pt).length := by omega
      have hsplit : (gcmEncrypt key nonce pt).set j bP
          = tripleEnc key nonce pt ++ [bP] := by
        unfold gcmEncrypt
        rw [hjeq, List.set_append_right _ _ (le_refl _)]
        simp
      rw [hsplit] at hs
      unfold gcmEncrypt at hs
      have hparts := List.append_inj' hs rfl
      have hbody : tripleEnc key nonce pt = tripleEnc key nonce pt2 := hparts.1
      have hbP : bP = (tripleEnc key nonce pt2).sum % 256 := by
        have := hparts.2
        injection this
      rw [← hbody] at hbP
      have hgetD : (gcmEncrypt key nonce pt).getD j 0 = (tripleEnc key nonce pt).sum % 256 := by
        unfold gcmEncrypt
        rw [hjeq]
        simp [List.getD_eq_getElem?_getD, List.getElem?_append_right (le_refl _)]
      rw [hgetD] at hne
      exact hne hbP

/-!
serde_json, abstracted: a `JsonCodec` packages the serializer
(`serde_json::to_string`, `none` modelling a serde error) and the
deserializer (`serde_json::from_str`, `none` modelling a schema
mismatch) for one Rust type.  The claims take as hypotheses exactly the
guarantees serde_json provides: round-trip on the value at hand, and
UTF-8 byte output.
-/

structure JsonCodec (α : Type) where
  ser : α → Option (List Nat)
  deser : List Nat → Option α

/-- A concrete codec used by witnesses: natural numbers as decimal
JSON numbers. -/
def natJson : JsonCodec Nat where
  ser n := some (if n = 0 then [48] else (digitsGo n n).reverse.map (fun d => d + 48))
  deser l := some (Nat.ofDigits 10 ((l.map (fun c => c - 48)).reverse))

/-!
The service of src/kryptor/utilities.rs.  Field and method names follow
the source.  Two deliberate modelling choices: the random 12-byte IV
that `encrypt_bytes` draws from OsRng is passed in as an explicit
argument (the random tape), and `&mut self` methods return the updated
service next to their result.
-/

structure KryptorService where
  ikm_base64 : List Nat
  context_base64 : List Nat
  derived_key : Option (List Nat)
deriving DecidableEq, Repr

/-- The EncryptedData struct: envelope text plus the context encoding
it was produced under. -/
structure EncryptedData where
  data : List Nat
  context : List Nat
deriving DecidableEq, Repr

namespace KryptorService

/-- `KryptorService::new`: stores both strings unchecked, empty cache. -/
def new (ikm_base64 context_base64 : List Nat) : KryptorService :=
  ⟨ikm_base64, context_base64, none⟩

/-- `KryptorService::with_context`: serializes the context to JSON,
base64-encodes it, and constructs the service. -/
def with_context {α : Type} (C : JsonCodec α) (ikm_base64 : List Nat) (context : α) :
    Outcome KryptorService :=
  match C.ser context with
  | none => .error .SerializationError
  | some context_json => .ok (new ikm_base64 (b64encode context_json))

/-- `KryptorService::derive_key`: returns the cached key if present;
otherwise base64-decodes ikm and context (each `?` propagating
Base64DecodeError), derives with HKDF-SHA256, and caches the key.  The
`hkdf.expand` call cannot fail for 32-byte output, so no HkdfError
arises. -/
def derive_key (s : KryptorService) : Outcome (List Nat) × KryptorService :=
  match s.derived_key with
  | some key => (.ok key, s)
  | none =>
    match b64decode s.ikm_base64 with
    | none => (.error .Base64DecodeError, s)
    | some ikm =>
      match b64decode s.context_base64 with
      | none => (.error .Base64DecodeError, s)
      | some info =>
        (.ok (hkdfExpand ikm info), { s with derived_key := some (hkdfExpand ikm info) })

/-- `KryptorService::encrypt_bytes`: derives the key, seals the
plaintext under the fresh IV, and returns base64 of IV ‖ ciphertext.
The `cipher.encrypt` call cannot fail for in-memory data. -/
def encrypt_bytes (s : KryptorService) (iv plaintext : List Nat) :
    Outcome (List Nat) × KryptorService :=
  match derive_key s with
  | (.ok key, s1) => (.ok (b64encode (iv ++ gcmEncrypt key iv plaintext)), s1)
  | (.error e, s1) => (.error e, s1)
  | (.panicked, s1) => (.panicked, s1)

/-- `KryptorService::decrypt_bytes`: derives the key, base64-decodes
the envelope, splits off the 12-byte IV — `split_at(12)` panics when
the decoded data is shorter than 12 bytes — and opens the ciphertext;
an AEAD failure surfaces as AesGcmError through `From<aes_gcm::Error>`. -/
def decrypt_bytes (s : KryptorService) (encoded_b64 : List Nat) :
    Outcome (List Nat) × KryptorService :=
  match derive_key s with
  | (.ok key, s1) =>
    (match b64decode encoded_b64 with
     | none => (.error .Base64DecodeError, s1)
     | some data =>
       if data.length < 12 then (.panicked, s1)
       else
         match gcmDecrypt key (data.take 12) (data.drop 12) with
         | none => (.error .AesGcmError, s1)
         | some plaintext => (.ok plaintext, s1))
  | (.error e, s1) => (.error e, s1)
  | (.panicked, s1) => (.panicked, s1)

/-- `KryptorService::encrypt_json`: JSON-serialize, base64 the JSON
text, encrypt those ASCII bytes. -/
def encrypt_json {α : Type} (C : JsonCodec α) (s : KryptorService) (iv : List Nat)
    (data : α) : Outcome (List Nat) × KryptorService :=
  match C.ser data with
  | none => (.error .SerializationError, s)
  | some json_bytes => encrypt_bytes s iv (b64encode json_bytes)

/-- `KryptorService::decrypt_json`: decrypt, read the bytes as UTF-8
text, base64-decode that text, read as UTF-8 again, deserialize. -/
def decrypt_json {α : Type} (C : JsonCodec α) (s : KryptorService)
    (encrypted_base64 : List Nat) : Outcome α × KryptorService :=
  match decrypt_bytes s encrypted_base64 with
  | (.ok decrypted_bytes, s1) =>
    (if utf8Valid decrypted_bytes then
      match b64decode decrypted_bytes with
      | none => (.error .Base64DecodeError, s1)
      | some json_bytes =>
        if utf8Valid json_bytes then
          match C.deser json_bytes with
          | none => (.error .SerializationError, s1)
          | some v => (.ok v, s1)
        else (.error .Utf8Error, s1)
    else (.error .Utf8Error, s1))
  | (.error e, s1) => (.error e, s1)
  | (.panicked, s1) => (.panicked, s1)

/-- `KryptorService::create_encrypted_package`: encrypt and pair with
the service's own context encoding. -/
def create_encrypted_package {α : Type} (C : JsonCodec α) (s : KryptorService)
    (iv : List Nat) (data : α) : Outcome EncryptedData × KryptorService :=
  match encrypt_json C s iv data with
  | (.ok encrypted_data, s1) => (.ok ⟨encrypted_data, s1.context_base64⟩, s1)
  | (.error e, s1) => (.error e, s1)
  | (.panicked, s1) => (.panicked, s1)

/-- `KryptorService::decrypt_package`: builds a fresh service from the
instance's root key and the package's embedded context, and decrypts
with it; the instance itself is left unchanged. -/
def decrypt_package {α : Type} (C : JsonCodec α) (s : KryptorService)
    (package : EncryptedData) : Outcome α × KryptorService :=
  ((decrypt_json C (new s.ikm_base64 package.context) package.data).1, s)

end KryptorService

namespace utilities

/-- The plain `derive_key` of src/utilities.rs: `expect` aborts on
either base64 failure. -/
def derive_key (ikm_b64 info_b64 : List Nat) : Outcome (List Nat) :=
  match b64decode ikm_b64 with
  | none => .panicked
  | some ikm =>
    match b64decode info_b64 with
    | none => .panicked
    | some info => .ok (hkdfExpand ikm info)

/-- The plain `encrypt_aes_gcm` of src/utilities.rs; sealing itself
cannot fail, so the `expect` there is unreachable. -/
def encrypt_aes_gcm (plaintext key iv : List Nat) : List Nat :=
  b64encode (iv ++ gcmEncrypt key iv plaintext)

/-- The plain `decrypt_aes_gcm` of src/utilities.rs: `expect` aborts on
bad base64 or authentication failure, and `split_at(12)` aborts on
short input. -/
def decrypt_aes_gcm (encoded_b64 key : List Nat) : Outcome (List Nat) :=
  match b64decode encoded_b64 with
  | none => .panicked
  | some data =>
    if data.length < 12 then .panicked
    else
      match gcmDecrypt key (data.take 12) (data.drop 12) with
      | none => .panicked
      | some plaintext => .ok plaintext

end utilities

/-!
Helper lemmas about the service operations.
-/

theorem isBytes_append {a b : List Nat} (ha : isBytes a) (hb : isBytes b) :
    isBytes (a ++ b) := by
  intro x hx
  rcases List.mem_append.mp hx with hx | hx
  · exact ha x hx
  · exact hb x hx

theorem isBytes_set {l : List Nat} (hl : isBytes l) {j b : Nat} (hb : b < 256) :
    isBytes (l.set j b) := by
  intro x hx
  rcases List.mem_or_eq_of_mem_set hx with hx | rfl
  · exact hl x hx
  · exact hb

namespace KryptorService

theorem derive_key_new (ikmB ctxB ikm info : List Nat)
    (hikm : b64decode ikmB = some ikm) (hctx : b64decode ctxB = some info) :
    derive_key (new ikmB ctxB)
      = (.ok (hkdfExpand ikm info), ⟨ikmB, ctxB, some (hkdfExpand ikm info)⟩) := by
  unfold derive_key new
  simp [hikm, hctx]

theorem derive_key_cached (s : KryptorService) (key : List Nat)
    (h : s.derived_key = some key) : derive_key s = (.ok key, s) := by
  unfold derive_key
  simp [h]

theorem derive_key_no_panic (s : KryptorService) : (derive_key s).1 ≠ .panicked := by
  unfold derive_key
  split
  · simp
  · split
    · simp
    · split <;> simp

theorem encrypt_bytes_spec (s sD : KryptorService) (key iv pt : List Nat)
    (hd : derive_key s = (.ok key, sD)) :
    encrypt_bytes s iv pt = (.ok (b64encode (iv ++ gcmEncrypt key iv pt)), sD) := by
  unfold encrypt_bytes
  rw [hd]

theorem decrypt_bytes_valid (s sD : KryptorService) (key keyE iv pt : List Nat)
    (hd : derive_key s = (.ok key, sD)) (hiv : iv.length = 12) (hivb : isBytes iv) :
    decrypt_bytes s (b64encode (iv ++ gcmEncrypt keyE iv pt))
      = (if key = keyE then (.ok pt, sD) else (.error .AesGcmError, sD)) := by
  unfold decrypt_bytes
  rw [hd]
  dsimp only
  have hbytes : isBytes (iv ++ gcmEncrypt keyE iv pt) :=
    isBytes_append hivb (gcmEncrypt_isBytes _ _ _)
  rw [b64decode_b64encode _ hbytes]
  dsimp only
  have hlen : ¬ (iv ++ gcmEncrypt keyE iv pt).length < 12 := by
    rw [List.length_append, hiv]
    omega
  rw [if_neg hlen]
  have htake : (iv ++ gcmEncrypt keyE iv pt).take 12 = iv := by
    rw [← hiv]
    exact List.take_left _ _
  have hdrop : (iv ++ gcmEncrypt keyE iv pt).drop 12 = gcmEncrypt keyE iv pt := by
    rw [← hiv]
    exact List.drop_left _ _
  rw [htake, hdrop]
  by_cases hkey : key = keyE
  · subst hkey
    rw [gcmDecrypt_gcmEncrypt, if_pos rfl]
  · rw [gcmDecrypt_separation (Or.inl hkey), if_neg hkey]

theorem decrypt_json_of_bytes_err {α : Type} (C : JsonCodec α) (s s1 : KryptorService)
    (enc : List Nat) (e : EncryptionError) (h : decrypt_bytes s enc = (.error e, s1)) :
    decrypt_json C s enc = (.error e, s1) := by
  unfold decrypt_json
  rw [h]

theorem decrypt_json_valid {α : Type} (C : JsonCodec α) (s sD : KryptorService)
    (key iv jb : List Nat) (v : α)
    (hd : derive_key s = (.ok key, sD)) (hiv : iv.length = 12) (hivb : isBytes iv)
    (hjb : isBytes jb) (hutf : utf8Valid jb = true) (hdeser : C.deser jb = some v) :
    decrypt_json C s (b64encode (iv ++ gcmEncrypt key iv (b64encode jb)))
      = (.ok v, sD) := by
  unfold decrypt_json
  rw [decrypt_bytes_valid s sD key key iv (b64encode jb) hd hiv hivb, if_pos rfl]
  dsimp only
  have hascii : utf8Valid (b64encode jb) = true :=
    utf8Valid_of_ascii _ (fun b hb => b64encode_lt_128 jb b hb)
  rw [hascii]
  simp only [if_true]
  rw [b64decode_b64encode _ hjb]
  dsimp only
  rw [hutf]
  simp only [if_true]
  rw [hdeser]

theorem encrypt_json_spec {α : Type} (C : JsonCodec α) (s sD : KryptorService)
    (key iv jb : List Nat) (v : α)
    (hser : C.ser v = some jb) (hd : derive_key s = (.ok key, sD)) :
    encrypt_json C s iv v
      = (.ok (b64encode (iv ++ gcmEncrypt key iv (b64encode jb))), sD) := by
  unfold encrypt_json
  rw [hser]
  dsimp only
  rw [encrypt_bytes_spec s sD key iv _ hd]

end KryptorService

/-!
Claim theorems.
-/

/-- C1: for every serializable value v, every valid base64 root key, and
every serializable context c, encrypting v with a KryptorService bound to
(root key, c) and then decrypting the resulting envelope with the service
bound to the same root key and context returns a value equal to v. -/
theorem C1_encrypt_decrypt_roundtrip {α γ : Type} (Cv : JsonCodec α) (Cc : JsonCodec γ)
    (v : α) (c : γ) (jb cj ikmB ikm iv : List Nat)
    (hser : Cv.ser v = some jb) (hdeser : Cv.deser jb = some v)
    (hjb : isBytes jb) (hutf : utf8Valid jb = true)
    (hserc : Cc.ser c = some cj) (hcj : isBytes cj)
    (hikm : b64decode ikmB = some ikm)
    (hiv : iv.length = 12) (hivb : isBytes iv) :
    ∃ svc env sDer,
      KryptorService.with_context Cc ikmB c = .ok svc ∧
      KryptorService.encrypt_json Cv svc iv v = (.ok env, sDer) ∧
      KryptorService.decrypt_json Cv svc env = (.ok v, sDer) := by
  have hwc : KryptorService.with_context Cc ikmB c
      = .ok (KryptorService.new ikmB (b64encode cj)) := by
    unfold KryptorService.with_context
    rw [hserc]
  have hd := KryptorService.derive_key_new ikmB (b64encode cj) ikm cj hikm
    (b64decode_b64encode cj hcj)
  exact ⟨_, _, _, hwc,
    KryptorService.encrypt_json_spec Cv _ _ _ iv jb v hser hd,
    KryptorService.decrypt_json_valid Cv _ _ _ iv jb v hd hiv hivb hjb hutf hdeser⟩

/-- C1 witness: concrete round trip with root key the empty (valid base64)
string, context 7, value 5, and an all-zero IV. -/
theorem C1_witness :
    ∃ svc env sDer,
      KryptorService.with_context natJson [] 7 = .ok svc ∧
      KryptorService.encrypt_json natJson svc (List.replicate 12 0) 5 = (.ok env, sDer) ∧
      KryptorService.decrypt_json natJson svc env = (.ok 5, sDer) :=
  C1_encrypt_decrypt_roundtrip natJson natJson 5 7 [53] [55] [] [] (List.replicate 12 0)
    (by decide) (by decide) (by decide) (by decide) (by decide) (by decide) (by decide)
    (by decide) (by decide)

/-- C2: for every value v and any two contexts whose canonical JSON
encodings differ, an envelope produced by encrypt under the first
context fails to decrypt under the second context with the
authentication error (EncryptionError.AesGcmError); no plaintext is
returned. -/
theorem C2_context_separation {α γ : Type} (Cv : JsonCodec α) (Cc : JsonCodec γ)
    (v : α) (c1 c2 : γ) (jb cj1 cj2 ikmB ikm iv : List Nat)
    (hser : Cv.ser v = some jb)
    (hserc1 : Cc.ser c1 = some cj1) (hc1 : isBytes cj1)
    (hserc2 : Cc.ser c2 = some cj2) (hc2 : isBytes cj2)
    (hneq : cj1 ≠ cj2)
    (hikm : b64decode ikmB = some ikm)
    (hiv : iv.length = 12) (hivb : isBytes iv) :
    ∃ svc1 svc2 env sA,
      KryptorService.with_context Cc ikmB c1 = .ok svc1 ∧
      KryptorService.with_context Cc ikmB c2 = .ok svc2 ∧
      KryptorService.encrypt_json Cv svc1 iv v = (.ok env, sA) ∧
      (KryptorService.decrypt_json Cv svc2 env).1 = .error .AesGcmError := by
  have hwc1 : KryptorService.with_context Cc ikmB c1
      = .ok (KryptorService.new ikmB (b64encode cj1)) := by
    unfold KryptorService.with_context
    rw [hserc1]
  have hwc2 : KryptorService.with_context Cc ikmB c2
      = .ok (KryptorService.new ikmB (b64encode cj2)) := by
    unfold KryptorService.with_context
    rw [hserc2]
  have hd1 := KryptorService.derive_key_new ikmB (b64encode cj1) ikm cj1 hikm
    (b64decode_b64encode cj1 hc1)
  have hd2 := KryptorService.derive_key_new ikmB (b64encode cj2) ikm cj2 hikm
    (b64decode_b64encode cj2 hc2)
  have hkeys : hkdfExpand ikm cj2 ≠ hkdfExpand ikm cj1 :=
    hkdfExpand_info_inj ikm cj2 cj1 hc2 hc1 (fun h => hneq h.symm)
  have hdecb := KryptorService.decrypt_bytes_valid _ _ (hkdfExpand ikm cj2)
    (hkdfExpand ikm cj1) iv (b64encode jb) hd2 hiv hivb
  rw [if_neg hkeys] at hdecb
  refine ⟨_, _, _, _, hwc1, hwc2,
    KryptorService.encrypt_json_spec Cv _ _ _ iv jb v hser hd1, ?_⟩
  rw [KryptorService.decrypt_json_of_bytes_err Cv _ _ _ _ hdecb]

/-- C2 witness: contexts 1 and 2 (JSON texts 49 and 50 differ), value 5,
empty root key, all-zero IV. -/
theorem C2_witness :
    ∃ svc1 svc2 env sA,
      KryptorService.with_context natJson [] 1 = .ok svc1 ∧
      KryptorService.with_context natJson [] 2 = .ok svc2 ∧
      KryptorService.encrypt_json natJson svc1 (List.replicate 12 0) 5 = (.ok env, sA) ∧
      (KryptorService.decrypt_json natJson svc2 env).1 = .error .AesGcmError :=
  C2_context_separation natJson natJson 5 1 2 [53] [49] [50] [] [] (List.replicate 12 0)
    (by decide) (by decide) (by decide) (by decide) (by decide) (by decide) (by decide)
    (by decide) (by decide)

theorem set_ne_of_ne (l : List Nat) (i b : Nat) (hi : i < l.length) (hne : b ≠ l.getD i 0) :
    l.set i b ≠ l := by
  intro heq
  have h1 : (l.set i b).getD i 0 = l.getD i 0 := by rw [heq]
  rw [List.getD_eq_getElem?_getD, List.getElem?_set_self hi] at h1
  rw [List.getD_eq_getElem?_getD] at hne
  simp at h1
  rw [← h1] at hne
  simp at hne

/-- C3: for every valid envelope, flipping any single byte of its decoded
content (nonce, ciphertext, or tag) causes decryption to fail with the
authentication error (EncryptionError.AesGcmError); corrupted input never
yields altered or partial plaintext. -/
theorem C3_tamper_detection (ikmB ctxB ikm info iv pt env raw : List Nat)
    (s1 : KryptorService) (i bP : Nat)
    (hikm : b64decode ikmB = some ikm) (hctx : b64decode ctxB = some info)
    (hiv : iv.length = 12) (hivb : isBytes iv)
    (henc : KryptorService.encrypt_bytes (KryptorService.new ikmB ctxB) iv pt
      = (.ok env, s1))
    (hraw : b64decode env = some raw)
    (hi : i < raw.length) (hbP : bP < 256) (hne : bP ≠ raw.getD i 0) :
    (KryptorService.decrypt_bytes s1 (b64encode (raw.set i bP))).1
      = .error .AesGcmError := by
  have hd := KryptorService.derive_key_new ikmB ctxB ikm info hikm hctx
  have hspec := KryptorService.encrypt_bytes_spec _ _ (hkdfExpand ikm info) iv pt hd
  rw [henc] at hspec
  have henv : env = b64encode (iv ++ gcmEncrypt (hkdfExpand ikm info) iv pt) := by
    have := congrArg Prod.fst hspec
    simpa using this
  have hs1 : s1 = ⟨ikmB, ctxB, some (hkdfExpand ikm info)⟩ := by
    have := congrArg Prod.snd hspec
    simpa using this
  have hctbytes : isBytes (gcmEncrypt (hkdfExpand ikm info) iv pt) :=
    gcmEncrypt_isBytes _ _ _
  have hrawbytes : isBytes (iv ++ gcmEncrypt (hkdfExpand ikm info) iv pt) :=
    isBytes_append hivb hctbytes
  have hraw2 : raw = iv ++ gcmEncrypt (hkdfExpand ikm info) iv pt := by
    rw [henv, b64decode_b64encode _ hrawbytes] at hraw
    exact ((Option.some.injEq _ _).mp hraw).symm
  subst hraw2
  have hdc : KryptorService.derive_key s1 = (.ok (hkdfExpand ikm info), s1) :=
    KryptorService.derive_key_cached _ _ (by rw [hs1])
  unfold KryptorService.decrypt_bytes
  rw [hdc]
  dsimp only
  rw [b64decode_b64encode _ (isBytes_set hrawbytes hbP)]
  dsimp only
  have hlen : ¬ ((iv ++ gcmEncrypt (hkdfExpand ikm info) iv pt).set i bP).length < 12 := by
    rw [List.length_set, List.length_append, hiv]
    omega
  rw [if_neg hlen]
  by_cases hcase : i < 12
  · -- the flip hits the 12-byte nonce prefix
    have hi12 : i < iv.length := by omega
    have hset : (iv ++ gcmEncrypt (hkdfExpand ikm info) iv pt).set i bP
        = iv.set i bP ++ gcmEncrypt (hkdfExpand ikm info) iv pt :=
      List.set_append_left _ _ hi12
    rw [hset]
    have hlen2 : (iv.set i bP).length = 12 := by rw [List.length_set, hiv]
    have htake : (iv.set i bP ++ gcmEncrypt (hkdfExpand ikm info) iv pt).take 12
        = iv.set i bP := by
      rw [← hlen2]
      exact List.take_left _ _
    have hdrop : (iv.set i bP ++ gcmEncrypt (hkdfExpand ikm info) iv pt).drop 12
        = gcmEncrypt (hkdfExpand ikm info) iv pt := by
      rw [← hlen2]
      exact List.drop_left _ _
    rw [htake, hdrop]
    have hgetD : (iv ++ gcmEncrypt (hkdfExpand ikm info) iv pt).getD i 0 = iv.getD i 0 := by
      simp [List.getD_eq_getElem?_getD, List.getElem?_append_left hi12]
    rw [hgetD] at hne
    have hnonce : iv.set i bP ≠ iv := set_ne_of_ne iv i bP hi12 hne
    rw [gcmDecrypt_separation (Or.inr hnonce)]
  · -- the flip hits the sealed ciphertext or tag
    have h12 : iv.length ≤ i := by omega
    have hset : (iv ++ gcmEncrypt (hkdfExpand ikm info) iv pt).set i bP
        = iv ++ (gcmEncrypt (hkdfExpand ikm info) iv pt).set (i - iv.length) bP :=
      List.set_append_right _ _ h12
    rw [hset]
    have hlen2 : ((gcmEncrypt (hkdfExpand ikm info) iv pt).set (i - iv.length) bP).length
        = (gcmEncrypt (hkdfExpand ikm info) iv pt).length := List.length_set _ _ _
    have htake : (iv ++ (gcmEncrypt (hkdfExpand ikm info) iv pt).set (i - iv.length) bP).take 12
        = iv := by
      rw [← hiv]
      exact List.take_left _ _
    have hdrop : (iv ++ (gcmEncrypt (hkdfExpand ikm info) iv pt).set (i - iv.length) bP).drop 12
        = (gcmEncrypt (hkdfExpand ikm info) iv pt).set (i - iv.length) bP := by
      rw [← hiv]
      exact List.drop_left _ _
    rw [htake, hdrop]
    have hict : i - iv.length < (gcmEncrypt (hkdfExpand ikm info) iv pt).length := by
      rw [List.length_append] at hi
      omega
    have hgetD : (iv ++ gcmEncrypt (hkdfExpand ikm info) iv pt).getD i 0
        = (gcmEncrypt (hkdfExpand ikm info) iv pt).getD (i - iv.length) 0 := by
      simp [List.getD_eq_getElem?_getD, List.getElem?_append_right h12]
    rw [hgetD] at hne
    rw [gcmDecrypt_flip _ _ _ _ _ hict hbP hne]

set_option maxRecDepth 100000 in
/-- C3 witness: flipping the first decoded byte (a nonce byte, 0 becomes 1)
of a concrete envelope makes decryption fail with AesGcmError. -/
theorem C3_witness :
    (KryptorService.decrypt_bytes
      (⟨[], [], some (hkdfExpand [] [])⟩ : KryptorService)
      (b64encode ((List.replicate 12 0
        ++ gcmEncrypt (hkdfExpand [] []) (List.replicate 12 0) [1]).set 0 1))).1
      = .error .AesGcmError :=
  C3_tamper_detection [] [] [] [] (List.replicate 12 0) [1]
    (b64encode (List.replicate 12 0
      ++ gcmEncrypt (hkdfExpand [] []) (List.replicate 12 0) [1]))
    (List.replicate 12 0 ++ gcmEncrypt (hkdfExpand [] []) (List.replicate 12 0) [1])
    (⟨[], [], some (hkdfExpand [] [])⟩ : KryptorService) 0 1
    (by decide) (by decide) (by decide) (by decide) (by decide) (by decide) (by decide)
    (by decide) (by decide)

/-- C4 counterexample: the claim says no input to any core operation
panics, but the plain `derive_key` of src/utilities.rs uses `expect` and
panics on the non-base64 root key consisting of the single byte 33
(an exclamation mark). -/
theorem C4_counterexample : utilities.derive_key [33] [] = .panicked := by decide

/-- C4 amended: the KryptorService operations return typed results and do
not panic — key derivation never, sealing never, and opening whenever the
decoded envelope is at least 12 bytes long — while the plain functions of
src/utilities.rs panic on invalid input instead of returning Results, and
opening panics on envelopes decoding to fewer than 12 bytes. -/
theorem C4_amended_no_panic (s : KryptorService) (iv pt enc data : List Nat)
    (hdec : b64decode enc = some data) (hlen : 12 ≤ data.length) :
    (KryptorService.derive_key s).1 ≠ .panicked ∧
    (KryptorService.encrypt_bytes s iv pt).1 ≠ .panicked ∧
    (KryptorService.decrypt_bytes s enc).1 ≠ .panicked := by
  refine ⟨KryptorService.derive_key_no_panic s, ?_, ?_⟩
  · unfold KryptorService.encrypt_bytes
    rcases hd : KryptorService.derive_key s with ⟨r, s1⟩
    cases r with
    | ok key => simp
    | error e => simp
    | panicked =>
      have := KryptorService.derive_key_no_panic s
      rw [hd] at this
      exact absurd rfl this
  · unfold KryptorService.decrypt_bytes
    rcases hd : KryptorService.derive_key s with ⟨r, s1⟩
    cases r with
    | ok key =>
      dsimp only
      rw [hdec]
      dsimp only
      rw [if_neg (by omega)]
      split <;> simp
    | error e => simp
    | panicked =>
      have := KryptorService.derive_key_no_panic s
      rw [hd] at this
      exact absurd rfl this

/-- C4 amended witness: concrete instantiation with the empty-string
service and a 12-byte envelope body. -/
theorem C4_amended_witness :
    (KryptorService.derive_key (KryptorService.new [] [])).1 ≠ .panicked ∧
    (KryptorService.encrypt_bytes (KryptorService.new [] []) [] []).1 ≠ .panicked ∧
    (KryptorService.decrypt_bytes (KryptorService.new [] [])
      (b64encode (List.replicate 12 0))).1 ≠ .panicked :=
  C4_amended_no_panic (KryptorService.new [] []) [] [] (b64encode (List.replicate 12 0))
    (List.replicate 12 0) (by decide) (by decide)

/-- C5: the spec requires an envelope decoding to fewer than 12 bytes to
fail with an EncodingError, but `decrypt_bytes` reaches `split_at(12)`
on the 0-byte decoding of the empty envelope string and panics. -/
theorem C5_short_envelope_panics :
    (KryptorService.decrypt_bytes (KryptorService.new [] []) []).1 = .panicked := by
  decide

/-- C6: for every serializable value and any two services sharing the same
root key — whatever contexts each is bound to — `decrypt_package` applied by
the second service to the package produced by `create_encrypted_package` on
the first returns the value: opening uses the package's embedded context
encoding with the instance's root key, and leaves the instance unchanged. -/
theorem C6_package_roundtrip {α γ δ : Type} (Cv : JsonCodec α) (Cc : JsonCodec γ)
    (Cd : JsonCodec δ) (v : α) (c1 : γ) (c2 : δ) (jb cj1 cj2 ikmB ikm iv : List Nat)
    (hser : Cv.ser v = some jb) (hdeser : Cv.deser jb = some v)
    (hjb : isBytes jb) (hutf : utf8Valid jb = true)
    (hserc1 : Cc.ser c1 = some cj1) (hc1 : isBytes cj1)
    (hserc2 : Cd.ser c2 = some cj2)
    (hikm : b64decode ikmB = some ikm)
    (hiv : iv.length = 12) (hivb : isBytes iv) :
    ∃ svc1 svc2 pkg sA,
      KryptorService.with_context Cc ikmB c1 = .ok svc1 ∧
      KryptorService.with_context Cd ikmB c2 = .ok svc2 ∧
      KryptorService.create_encrypted_package Cv svc1 iv v = (.ok pkg, sA) ∧
      KryptorService.decrypt_package Cv svc2 pkg = (.ok v, svc2) := by
  have hwc1 : KryptorService.with_context Cc ikmB c1
      = .ok (KryptorService.new ikmB (b64encode cj1)) := by
    unfold KryptorService.with_context
    rw [hserc1]
  have hwc2 : KryptorService.with_context Cd ikmB c2
      = .ok (KryptorService.new ikmB (b64encode cj2)) := by
    unfold KryptorService.with_context
    rw [hserc2]
  have hd1 := KryptorService.derive_key_new ikmB (b64encode cj1) ikm cj1 hikm
    (b64decode_b64encode cj1 hc1)
  have hpkg : KryptorService.create_encrypted_package Cv
        (KryptorService.new ikmB (b64encode cj1)) iv v
      = (.ok ⟨b64encode (iv ++ gcmEncrypt (hkdfExpand ikm cj1) iv (b64encode jb)),
          b64encode cj1⟩,
         ⟨ikmB, b64encode cj1, some (hkdfExpand ikm cj1)⟩) := by
    unfold KryptorService.create_encrypted_package
    rw [KryptorService.encrypt_json_spec Cv _ _ _ iv jb v hser hd1]
  refine ⟨_, _, _, _, hwc1, hwc2, hpkg, ?_⟩
  show ((KryptorService.decrypt_json Cv (KryptorService.new ikmB (b64encode cj1))
      (b64encode (iv ++ gcmEncrypt (hkdfExpand ikm cj1) iv (b64encode jb)))).1,
    KryptorService.new ikmB (b64encode cj2))
    = (Outcome.ok v, KryptorService.new ikmB (b64encode cj2))
  rw [KryptorService.decrypt_json_valid Cv _ _ _ iv jb v hd1 hiv hivb hjb hutf hdeser]

/-- C6 witness: package created under context 7 is opened by a service
bound to context 9 sharing the same (empty) root key. -/
theorem C6_witness :
    ∃ svc1 svc2 pkg sA,
      KryptorService.with_context natJson [] 7 = .ok svc1 ∧
      KryptorService.with_context natJson [] 9 = .ok svc2 ∧
      KryptorService.create_encrypted_package natJson svc1 (List.replicate 12 0) 5
        = (.ok pkg, sA) ∧
      KryptorService.decrypt_package natJson svc2 pkg = (.ok 5, svc2) :=
  C6_package_roundtrip natJson natJson natJson 5 7 9 [53] [55] [57] [] []
    (List.replicate 12 0) (by decide) (by decide) (by decide) (by decide) (by decide)
    (by decide) (by decide) (by decide) (by decide) (by decide)

/-- C7: key derivation is deterministic and idempotent — a fresh instance
holding a given root key and context encoding derives exactly the HKDF key
of their decodings (so any two instances with the same fields agree), a
repeated call on the now-cached instance returns the identical key with the
state unchanged, and the key is 32 units long like the `[u8; 32]` of the
source. -/
theorem C7_derivation_determinism (ikmB ctxB ikm info : List Nat)
    (hikm : b64decode ikmB = some ikm) (hctx : b64decode ctxB = some info) :
    KryptorService.derive_key (KryptorService.new ikmB ctxB)
      = (.ok (hkdfExpand ikm info), ⟨ikmB, ctxB, some (hkdfExpand ikm info)⟩) ∧
    KryptorService.derive_key ⟨ikmB, ctxB, some (hkdfExpand ikm info)⟩
      = (.ok (hkdfExpand ikm info), ⟨ikmB, ctxB, some (hkdfExpand ikm info)⟩) ∧
    (hkdfExpand ikm info).length = 32 :=
  ⟨KryptorService.derive_key_new ikmB ctxB ikm info hikm hctx,
   KryptorService.derive_key_cached _ _ rfl,
   hkdfExpand_length ikm info⟩

/-- C7 witness: both derivations on the empty root key and context. -/
theorem C7_witness :
    KryptorService.derive_key (KryptorService.new [] [])
      = (.ok (hkdfExpand [] []), ⟨[], [], some (hkdfExpand [] [])⟩) ∧
    KryptorService.derive_key ⟨[], [], some (hkdfExpand [] [])⟩
      = (.ok (hkdfExpand [] []), ⟨[], [], some (hkdfExpand [] [])⟩) ∧
    (hkdfExpand [] []).length = 32 :=
  C7_derivation_determinism [] [] [] [] (by decide) (by decide)

/-- C8: if `derive_key` returns an error, the whole service state — in
particular the derived-key cache — is unchanged; the cache is assigned only
by the fully successful path. -/
theorem C8_no_cache_on_error (s : KryptorService) (e : EncryptionError)
    (h : (KryptorService.derive_key s).1 = .error e) :
    (KryptorService.derive_key s).2 = s := by
  rcases hdk : s.derived_key with _ | key
  · rcases hikm : b64decode s.ikm_base64 with _ | ikm
    · simp [KryptorService.derive_key, hdk, hikm]
    · rcases hctx : b64decode s.context_base64 with _ | info
      · simp [KryptorService.derive_key, hdk, hikm, hctx]
      · simp [KryptorService.derive_key, hdk, hikm, hctx] at h
  · simp [KryptorService.derive_key, hdk]

/-- C8 witness: a root key that is not valid base64 leaves the service
untouched. -/
theorem C8_witness :
    (KryptorService.derive_key (KryptorService.new [33] [])).2
      = KryptorService.new [33] [] :=
  C8_no_cache_on_error (KryptorService.new [33] []) .Base64DecodeError (by decide)

/-- C9: a service built by `with_context` stores base64 of the JSON
serialization of the context, the base64 decoding inside `derive_key`
exactly cancels that encoding, and so the HKDF info — the effective
derivation input — is the raw serialized context bytes. -/
theorem C9_with_context_raw_info {α : Type} (C : JsonCodec α) (ikmB : List Nat)
    (c : α) (cj ikm : List Nat)
    (hser : C.ser c = some cj) (hcj : isBytes cj)
    (hikm : b64decode ikmB = some ikm) :
    ∃ svc,
      KryptorService.with_context C ikmB c = .ok svc ∧
      svc.context_base64 = b64encode cj ∧
      b64decode svc.context_base64 = some cj ∧
      KryptorService.derive_key svc
        = (.ok (hkdfExpand ikm cj), ⟨ikmB, b64encode cj, some (hkdfExpand ikm cj)⟩) := by
  refine ⟨KryptorService.new ikmB (b64encode cj), ?_, rfl,
    b64decode_b64encode cj hcj,
    KryptorService.derive_key_new ikmB (b64encode cj) ikm cj hikm
      (b64decode_b64encode cj hcj)⟩
  unfold KryptorService.with_context
  rw [hser]

/-- C9 witness: context 7 serializes to the single byte 55; the derived key
uses exactly those raw bytes as info. -/
theorem C9_witness :
    ∃ svc,
      KryptorService.with_context natJson [] 7 = .ok svc ∧
      svc.context_base64 = b64encode [55] ∧
      b64decode svc.context_base64 = some [55] ∧
      KryptorService.derive_key svc
        = (.ok (hkdfExpand [] [55]), ⟨[], b64encode [55], some (hkdfExpand [] [55])⟩) :=
  C9_with_context_raw_info natJson [] 7 [55] [] (by decide) (by decide) (by decide)

/-- C10: `KryptorService::new` succeeds for arbitrary input strings with no
validation; a malformed base64 root key or context is detected only by the
operations that derive the key, which fail with Base64DecodeError. -/
theorem C10_lazy_base64_validation (ikmB ctxB iv pt enc : List Nat)
    (hbad : b64decode ikmB = none ∨ b64decode ctxB = none) :
    KryptorService.new ikmB ctxB = ⟨ikmB, ctxB, none⟩ ∧
    (KryptorService.derive_key (KryptorService.new ikmB ctxB)).1
      = .error .Base64DecodeError ∧
    (KryptorService.encrypt_bytes (KryptorService.new ikmB ctxB) iv pt).1
      = .error .Base64DecodeError ∧
    (KryptorService.decrypt_bytes (KryptorService.new ikmB ctxB) enc).1
      = .error .Base64DecodeError := by
  have hderive : KryptorService.derive_key (KryptorService.new ikmB ctxB)
      = (.error .Base64DecodeError, KryptorService.new ikmB ctxB) := by
    rcases hbad with hbad | hbad
    · simp [KryptorService.derive_key, KryptorService.new, hbad]
    · cases hikm : b64decode ikmB with
      | none => simp [KryptorService.derive_key, KryptorService.new, hikm]
      | some ikm => simp [KryptorService.derive_key, KryptorService.new, hikm, hbad]
  refine ⟨rfl, by rw [hderive], ?_, ?_⟩
  · unfold KryptorService.encrypt_bytes
    rw [hderive]
  · unfold KryptorService.decrypt_bytes
    rw [hderive]

/-- C10 witness: the root key consisting of the single byte 33 is not valid
base64; construction succeeds and every deriving operation reports
Base64DecodeError. -/
theorem C10_witness :
    KryptorService.new [33] [] = ⟨[33], [], none⟩ ∧
    (KryptorService.derive_key (KryptorService.new [33] [])).1
      = .error .Base64DecodeError ∧
    (KryptorService.encrypt_bytes (KryptorService.new [33] []) [] []).1
      = .error .Base64DecodeError ∧
    (KryptorService.decrypt_bytes (KryptorService.new [33] []) []).1
      = .error .Base64DecodeError :=
  C10_lazy_base64_validation [33] [] [] [] [] (Or.inl (by decide))
